import Mathlib

/-!
Verification of the live log streaming and rendering pipeline of
cockpit-container-apps: the ANSI SGR escape-sequence parser, the bounded
log buffer, the scroll-follow tracker (all from
frontend/src/components/ServiceLog.tsx), and the stream lifecycle manager.
-/

/-- A styled text run, mirroring the AnsiSpan interface of ServiceLog.tsx:
`{ text: string; color?: string; bold?: boolean }`. Text is modelled as a
list of characters. -/
structure AnsiSpan where
  text : List Char
  color : Option String
  bold : Bool
deriving DecidableEq, Repr

/-- The ANSI_COLORS table of ServiceLog.tsx, mapping SGR codes 30-37 and
90-97 to CSS color strings; all other codes are absent. -/
def ANSI_COLORS (n : Nat) : Option String :=
  if n = 30 then some "#555"
  else if n = 31 then some "#c00"
  else if n = 32 then some "#0a0"
  else if n = 33 then some "#a50"
  else if n = 34 then some "#00c"
  else if n = 35 then some "#c0c"
  else if n = 36 then some "#0cc"
  else if n = 37 then some "#ccc"
  else if n = 90 then some "#888"
  else if n = 91 then some "#f55"
  else if n = 92 then some "#5f5"
  else if n = 93 then some "#ff5"
  else if n = 94 then some "#55f"
  else if n = 95 then some "#f5f"
  else if n = 96 then some "#5ff"
  else if n = 97 then some "#fff"
  else none

/-- Characters allowed in the parameter part of the regex
`\x1b\[([0-9;]*)m`: decimal digits and the semicolon. -/
def isParamChar (c : Char) : Bool :=
  c = ';' || (('0' : Char) ≤ c && c ≤ ('9' : Char))

/-- Leftmost-match test of the regex `\x1b\[([0-9;]*)m` at the head of the
input: if the input starts with ESC `[`, a maximal run of digits and
semicolons, then `m`, return the captured parameter characters and the
remainder after the match; otherwise `none`. Greedy matching of `[0-9;]*`
followed by the literal `m` cannot succeed after backtracking to a shorter
run, since `m` is not a parameter character, so the maximal run is the only
candidate. -/
def sgrMatch (l : List Char) : Option (List Char × List Char) :=
  match l with
  | c1 :: c2 :: t =>
    if c1 = '\x1b' && c2 = '[' then
      match t.dropWhile isParamChar with
      | c3 :: rest => if c3 = 'm' then some (t.takeWhile isParamChar, rest) else none
      | [] => none
    else none
  | _ => none

/-- `String.split(';')` on the captured parameter characters, keeping empty
segments, exactly as JavaScript does. -/
def splitSemis : List Char → List (List Char)
  | [] => [[]]
  | c :: t =>
    if c = ';' then [] :: splitSemis t
    else
      match splitSemis t with
      | [] => [[c]]
      | s :: rest => (c :: s) :: rest

/-- `Number(segment)` for a segment of decimal digits; the empty segment
yields 0, as `Number("")` does in JavaScript. -/
def numOf (s : List Char) : Nat :=
  s.foldl (fun a c => a * 10 + (c.toNat - 48)) 0

/-- The code list extracted from one escape sequence:
`match[1] ? match[1].split(';').map(Number) : [0]`. -/
def codesOf (ps : List Char) : List Nat :=
  if ps = [] then [0] else (splitSemis ps).map numOf

/-- One iteration of the `for (const code of params)` loop of parseAnsi:
0 clears color and bold, 1 sets bold, 39 clears only the color, a palette
code sets the color, anything else is ignored. -/
def applyCode (st : Option String × Bool) (code : Nat) : Option String × Bool :=
  if code = 0 then (none, false)
  else if code = 1 then (st.1, true)
  else if code = 39 then (none, st.2)
  else
    match ANSI_COLORS code with
    | some c => (some c, st.2)
    | none => st

/-- The whole parameter loop: codes applied left to right. -/
def applyCodes (st : Option String × Bool) (codes : List Nat) : Option String × Bool :=
  codes.foldl applyCode st

/-- The scanning loop of parseAnsi, structurally recursive on a fuel bound
(one unit per character consumed; `parseAnsi` supplies the input length,
which `parseAnsiFuel_fuel_irrel` proves sufficient). `acc` holds, in
reverse, the plain characters seen since the last emitted span (the text
between `lastIndex` and the next match). At a match the pending text is
flushed as a span carrying the current style, then the codes update the
style; a character not starting a match is appended to the pending text.
At end of input the pending text, if any, is flushed with the final
style. -/
def parseAnsiFuel : Nat → List Char → Option String → Bool → List Char → List AnsiSpan
  | _, [], color, bold, acc => if acc = [] then [] else [⟨acc.reverse, color, bold⟩]
  | 0, _ :: _, _, _, _ => []
  | fuel + 1, c :: rest, color, bold, acc =>
    match sgrMatch (c :: rest) with
    | some (ps, rest2) =>
      let st2 := applyCodes (color, bold) (codesOf ps)
      (if acc = [] then [] else [⟨acc.reverse, color, bold⟩]) ++
        parseAnsiFuel fuel rest2 st2.1 st2.2 []
    | none => parseAnsiFuel fuel rest color bold (c :: acc)

/-- parseAnsi of ServiceLog.tsx: scan the line for SGR escape sequences
`ESC [ params m`, maintaining a color/bold state, and emit one styled span
for each maximal stretch of plain text. -/
def parseAnsi (s : String) : List AnsiSpan :=
  parseAnsiFuel s.toList.length s.toList none false []

/-- Spec-side companion of the parser, for the round-trip claim: the input
with every well-formed SGR escape sequence removed, scanning left to right
with the same leftmost-match discipline as the regex. Structurally
recursive on the same fuel bound as the parser. -/
def stripAnsiFuel : Nat → List Char → List Char
  | _, [] => []
  | 0, _ :: _ => []
  | fuel + 1, c :: rest =>
    match sgrMatch (c :: rest) with
    | some (_, rest2) => stripAnsiFuel fuel rest2
    | none => c :: stripAnsiFuel fuel rest

/-- The input with every well-formed SGR escape sequence removed. -/
def stripAnsi (l : List Char) : List Char :=
  stripAnsiFuel l.length l

/-- MAX_LOG_LINES of ServiceLog.tsx: the buffer capacity. -/
def MAX_LOG_LINES : Nat := 200

/-- LogEntry of ServiceLog.tsx: `{ id: number; text: string }`. -/
structure LogEntry where
  id : Nat
  text : String
deriving DecidableEq, Repr

/-- The buffer-relevant state of one expanded ServiceLog panel: the
`entries` array and the `nextId` ref. -/
structure BufferState where
  entries : List LogEntry
  nextId : Nat
deriving DecidableEq, Repr

/-- The state on expansion: `setEntries([])` with `nextId.current` at 0. -/
def initBuffer : BufferState := ⟨[], 0⟩

/-- The onLine updater of ServiceLog.tsx: build
`{ id: nextId.current++, text: line }`, append it, and when the length
exceeds MAX_LOG_LINES keep only the last MAX_LOG_LINES entries
(`next.slice(next.length - MAX_LOG_LINES)`). -/
def appendLine (st : BufferState) (line : String) : BufferState :=
  let entry : LogEntry := ⟨st.nextId, line⟩
  let next := st.entries ++ [entry]
  ⟨if MAX_LOG_LINES < next.length then next.drop (next.length - MAX_LOG_LINES)
    else next,
   st.nextId + 1⟩

/-- Sequential delivery of a list of lines, oldest first. -/
def appendAll (st : BufferState) (lines : List String) : BufferState :=
  lines.foldl appendLine st

/-- Clearing the log (re-expanding the panel runs `setEntries([])`): the
entries are emptied but the `nextId` ref is untouched. -/
def clearBuffer (st : BufferState) : BufferState :=
  ⟨[], st.nextId⟩

/-- The entries that delivering a list of lines creates when the id counter
starts at `k`: ids are consecutive from `k`, texts are the lines in
order. -/
def entriesFrom (k : Nat) : List String → List LogEntry
  | [] => []
  | t :: ts => ⟨k, t⟩ :: entriesFrom (k + 1) ts

/-- Initial value of the shouldAutoScroll ref of ServiceLog.tsx. -/
def shouldAutoScrollInit : Bool := true

/-- handleScroll of ServiceLog.tsx: the flag recomputed on each scroll
observation, `scrollHeight - scrollTop - clientHeight < 30`. -/
def handleScroll (scrollHeight scrollTop clientHeight : Int) : Bool :=
  scrollHeight - scrollTop - clientHeight < 30

/-- Modelled from the spec: the state machine of a journal stream handle
(`streamServiceJournal` of frontend/src/api.ts, which is not among the
sources; only its caller in ServiceLog.tsx is). §4.3: `Idle -> Streaming`
on open, `-> Closed` on close or terminal error, no transition leaves
Closed. -/
inductive StreamState where
  | streaming
  | closed
deriving DecidableEq, Repr

/-- Modelled from the spec: the observable history of one subscription
handle — its state, how many times the underlying resource has been
released, and the onLine/onError invocations made so far. -/
structure StreamHandle where
  state : StreamState
  released : Nat
  onLineCalls : List String
  onErrorCalls : List String
deriving DecidableEq, Repr

/-- Modelled from the spec: the events that can hit a handle — a line
delivered by the transport, a transport failure, and a close() call. -/
inductive StreamEvent where
  | deliver (line : String)
  | fail (msg : String)
  | close
deriving DecidableEq, Repr

/-- Modelled from the spec: a freshly opened handle is Streaming with no
deliveries and the resource not yet released. -/
def openHandle : StreamHandle :=
  ⟨.streaming, 0, [], []⟩

/-- Modelled from the spec: one event step. While Streaming, a delivery
invokes onLine, a transport failure invokes onError once and is terminal,
and close() moves to Closed, releasing the resource. Once Closed, every
event is discarded: no further onLine/onError invocations, no further
release. -/
def streamStep (h : StreamHandle) (e : StreamEvent) : StreamHandle :=
  match h.state with
  | .closed => h
  | .streaming =>
    match e with
    | .deliver line => { h with onLineCalls := h.onLineCalls ++ [line] }
    | .fail msg =>
      { h with state := .closed, released := h.released + 1,
               onErrorCalls := h.onErrorCalls ++ [msg] }
    | .close => { h with state := .closed, released := h.released + 1 }

/-- Modelled from the spec: a sequence of events processed in order. -/
def streamRun (h : StreamHandle) (es : List StreamEvent) : StreamHandle :=
  es.foldl streamStep h

theorem length_dropWhile_le (p : Char → Bool) (l : List Char) :
    (l.dropWhile p).length ≤ l.length := by
  induction l with
  | nil => simp
  | cons a t ih =>
    rw [List.dropWhile_cons]
    split
    · exact le_trans ih (by simp)
    · simp

theorem sgrMatch_rest_length {l ps rest : List Char}
    (h : sgrMatch l = some (ps, rest)) : rest.length < l.length := by
  rcases l with _ | ⟨c1, l⟩
  · exact Option.noConfusion h
  rcases l with _ | ⟨c2, t⟩
  · exact Option.noConfusion h
  simp only [sgrMatch] at h
  split at h
  · rcases hd : t.dropWhile isParamChar with _ | ⟨c3, rest'⟩
    · rw [hd] at h; exact Option.noConfusion h
    · rw [hd] at h
      split at h
      · rename_i x c3x restx heq
        cases heq
        split at h
        · have h2 := (Prod.mk.injEq _ _ _ _).mp (Option.some.inj h)
          have hle := length_dropWhile_le isParamChar t
          rw [hd] at hle
          rw [← h2.2]
          simp only [List.length_cons] at hle ⊢
          omega
        · exact Option.noConfusion h
      · rename_i x c3x heq
        exact Option.noConfusion h
  · exact Option.noConfusion h

/-- The fuel argument is irrelevant as long as it covers the input length,
so `parseAnsi` computes the total scan of the whole line. -/
theorem parseAnsiFuel_fuel_irrel :
    ∀ fuel fuel' (l : List Char) color bold acc, l.length ≤ fuel → l.length ≤ fuel' →
      parseAnsiFuel fuel l color bold acc = parseAnsiFuel fuel' l color bold acc := by
  intro fuel
  induction fuel with
  | zero =>
    intro fuel' l color bold acc h h'
    have : l = [] := List.length_eq_zero.mp (Nat.le_zero.mp h)
    subst this
    cases fuel' <;> rfl
  | succ fuel ih =>
    intro fuel' l color bold acc h h'
    rcases l with _ | ⟨c, rest⟩
    · cases fuel' <;> rfl
    · rcases fuel' with _ | fuel'
      · exact absurd h' (by simp)
      · simp only [parseAnsiFuel]
        split
        · rename_i x ps rest2 hm
          have hlt := sgrMatch_rest_length hm
          simp only [List.length_cons] at h h' hlt
          congr 1
          exact ih fuel' rest2 _ _ [] (by omega) (by omega)
        · rename_i x hm
          exact ih fuel' rest color bold (c :: acc) (by simpa using h) (by simpa using h')

example : parseAnsi "hello world" = [⟨"hello world".toList, none, false⟩] := by decide
example : parseAnsi "" = [] := by decide
example : parseAnsi "\x1b[32mgreen text\x1b[0m" =
    [⟨"green text".toList, some "#0a0", false⟩] := by decide
example : parseAnsi "\x1b[31mred\x1b[39m normal" =
    [⟨"red".toList, some "#c00", false⟩, ⟨" normal".toList, none, false⟩] := by decide
example : parseAnsi "\x1b[1;32mbold green\x1b[0m" =
    [⟨"bold green".toList, some "#0a0", true⟩] := by decide
example : parseAnsi "\x1b[1m\x1b[33mbold yellow\x1b[0m" =
    [⟨"bold yellow".toList, some "#a50", true⟩] := by decide
example : parseAnsi "before \x1b[31mred\x1b[0m after" =
    [⟨"before ".toList, none, false⟩, ⟨"red".toList, some "#c00", false⟩,
     ⟨" after".toList, none, false⟩] := by decide
example : parseAnsi "\x1b[91mbright red\x1b[0m" =
    [⟨"bright red".toList, some "#f55", false⟩] := by decide
example : parseAnsi "\x1b[34mblue to the end" =
    [⟨"blue to the end".toList, some "#00c", false⟩] := by decide
example : parseAnsi "\x1b[31mred\x1b[32mgreen\x1b[0m" =
    [⟨"red".toList, some "#c00", false⟩, ⟨"green".toList, some "#0a0", false⟩] := by decide
example : parseAnsi "\x1b[1;mX" = [⟨['X'], none, false⟩] := by decide
example : parseAnsi "\x1b[;32mX" = [⟨['X'], some "#0a0", false⟩] := by decide
example : parseAnsi "\x1b[31x" = [⟨"\x1b[31x".toList, none, false⟩] := by decide

theorem sgrMatch_none_of_head_ne {c : Char} (rest : List Char) (hc : c ≠ '\x1b') :
    sgrMatch (c :: rest) = none := by
  rcases rest with _ | ⟨c2, t⟩
  · rfl
  · simp [sgrMatch, hc]

theorem parseAnsiFuel_flatten :
    ∀ fuel (l : List Char) color bold acc, l.length ≤ fuel →
      ((parseAnsiFuel fuel l color bold acc).map AnsiSpan.text).flatten =
        acc.reverse ++ stripAnsiFuel fuel l := by
  intro fuel
  induction fuel with
  | zero =>
    intro l color bold acc h
    have : l = [] := List.length_eq_zero.mp (Nat.le_zero.mp h)
    subst this
    by_cases ha : acc = ([] : List Char)
    · simp [parseAnsiFuel, stripAnsiFuel, ha]
    · simp [parseAnsiFuel, stripAnsiFuel, ha]
  | succ fuel ih =>
    intro l color bold acc h
    rcases l with _ | ⟨c, rest⟩
    · by_cases ha : acc = ([] : List Char)
      · simp [parseAnsiFuel, stripAnsiFuel, ha]
      · simp [parseAnsiFuel, stripAnsiFuel, ha]
    · simp only [parseAnsiFuel, stripAnsiFuel]
      split
      · rename_i x ps rest2 hm
        have hlt := sgrMatch_rest_length hm
        simp only [List.length_cons] at h hlt
        rw [List.map_append, List.flatten_append]
        rw [ih rest2 _ _ [] (by omega)]
        by_cases ha : acc = ([] : List Char)
        · simp [ha]
        · simp [ha]
      · rename_i x hm
        rw [ih rest color bold (c :: acc) (by simpa using h)]
        simp

/-- C1: for every input line, concatenating the text fields of all runs
returned by parseAnsi reproduces the line with every well-formed SGR escape
sequence (ESC `[` params `m`) removed. -/
theorem parseAnsi_text_roundtrip (s : String) :
    ((parseAnsi s).map AnsiSpan.text).flatten = stripAnsi s.toList := by
  unfold parseAnsi stripAnsi
  simpa using parseAnsiFuel_flatten s.toList.length s.toList none false [] le_rfl

/-- C4: an escape-like byte sequence that does not match the recognized
grammar `ESC [ <digits/semicolons> m` is inert: at such a position the
scanner consumes the character as plain pending text, emitting no run and
leaving the color/bold state untouched (and since the parser is a total
function, it never fails on any input). -/
theorem parseAnsi_malformed_inert (fuel : Nat) (c : Char) (rest : List Char)
    (color : Option String) (bold : Bool) (acc : List Char)
    (h : sgrMatch (c :: rest) = none) :
    parseAnsiFuel (fuel + 1) (c :: rest) color bold acc =
      parseAnsiFuel fuel rest color bold (c :: acc) := by
  simp only [parseAnsiFuel]
  split
  · rename_i x ps rest2 hm
    rw [h] at hm
    exact Option.noConfusion hm
  · rfl

theorem parseAnsi_malformed_inert_witness :
    sgrMatch ('\x1b' :: "[31x".toList) = none ∧
      parseAnsiFuel 5 ('\x1b' :: "[31x".toList) none false [] =
        parseAnsiFuel 4 "[31x".toList none false ('\x1b' :: []) :=
  ⟨by decide, parseAnsi_malformed_inert 4 '\x1b' "[31x".toList none false [] (by decide)⟩

theorem parseAnsiFuel_no_esc :
    ∀ fuel (l : List Char) color bold acc, l.length ≤ fuel → '\x1b' ∉ l →
      parseAnsiFuel fuel l color bold acc =
        if acc = [] ∧ l = [] then [] else [⟨acc.reverse ++ l, color, bold⟩] := by
  intro fuel
  induction fuel with
  | zero =>
    intro l color bold acc h hesc
    have : l = [] := List.length_eq_zero.mp (Nat.le_zero.mp h)
    subst this
    by_cases ha : acc = ([] : List Char)
    · simp [parseAnsiFuel, ha]
    · simp [parseAnsiFuel, ha]
  | succ fuel ih =>
    intro l color bold acc h hesc
    rcases l with _ | ⟨c, rest⟩
    · by_cases ha : acc = ([] : List Char)
      · simp [parseAnsiFuel, ha]
      · simp [parseAnsiFuel, ha]
    · have hc : c ≠ '\x1b' := by
        intro hh
        exact hesc (hh ▸ List.mem_cons_self c rest)
      simp only [parseAnsiFuel, sgrMatch_none_of_head_ne rest hc]
      rw [ih rest color bold (c :: acc) (by simpa using h)
        (fun hm => hesc (List.mem_cons_of_mem c hm))]
      by_cases hr : rest = ([] : List Char)
      · simp [hr]
      · simp [hr, List.append_assoc]

/-- C5 counterexample: the empty line contains no escape sequences, yet
parseAnsi returns no run at all rather than exactly one run. -/
theorem parseAnsi_empty_line_counterexample :
    ¬ parseAnsi "" = [⟨"".toList, none, false⟩] := by decide

/-- C5 (amended): for every non-empty input line containing no escape
character, parseAnsi returns exactly one run whose text equals the input
and whose style is the default (color none, bold false); the empty line
yields no runs. -/
theorem parseAnsi_plain_single_run (s : String) (hne : s.toList ≠ [])
    (hesc : '\x1b' ∉ s.toList) :
    parseAnsi s = [⟨s.toList, none, false⟩] := by
  unfold parseAnsi
  rw [parseAnsiFuel_no_esc s.toList.length s.toList none false [] le_rfl hesc]
  rw [if_neg (fun hand => hne hand.2)]
  simp

theorem parseAnsi_plain_single_run_witness :
    "hello".toList ≠ [] ∧ '\x1b' ∉ "hello".toList ∧
      parseAnsi "hello" = [⟨"hello".toList, none, false⟩] :=
  ⟨by decide, by decide, parseAnsi_plain_single_run "hello" (by decide) (by decide)⟩

/-- C7: codes within one escape sequence are applied left to right with
later codes overriding earlier ones, code 39 resets only the color leaving
bold untouched, and the two concrete evaluations of the spec hold:
`1;32` yields bold green, `31` then `39` yields red then default. -/
theorem parseAnsi_code_application :
    parseAnsi "\x1b[1;32mbold green\x1b[0m" =
        [⟨"bold green".toList, some "#0a0", true⟩] ∧
      parseAnsi "\x1b[31mred\x1b[39m normal" =
        [⟨"red".toList, some "#c00", false⟩, ⟨" normal".toList, none, false⟩] ∧
      (∀ (st : Option String × Bool) (code : Nat) (codes : List Nat),
        applyCodes st (code :: codes) = applyCodes (applyCode st code) codes) ∧
      (∀ st : Option String × Bool, applyCode st 39 = (none, st.2)) :=
  ⟨by decide, by decide, fun st code codes => rfl, fun st => rfl⟩

/-- C10: inside a non-empty parameter string every empty segment is
converted by `Number("")` to the code 0 and acts as a full reset (clearing
color and bold); the wholly empty parameter string defaults to `[0]`.
Concretely `ESC [1;m` ends with default style and `ESC [;32m` resets, then
sets green. -/
theorem parseAnsi_empty_segment_resets :
    numOf [] = 0 ∧
      codesOf ("1;".toList) = [1, 0] ∧
      codesOf (";32".toList) = [0, 32] ∧
      codesOf [] = [0] ∧
      (∀ st : Option String × Bool, applyCode st 0 = (none, false)) ∧
      parseAnsi "\x1b[1;mX" = [⟨['X'], none, false⟩] ∧
      parseAnsi "\x1b[;32mX" = [⟨['X'], some "#0a0", false⟩] :=
  ⟨rfl, by decide, by decide, rfl, fun st => rfl, by decide, by decide⟩

/-- C8: the auto-follow flag starts true, and each scroll observation
recomputes it as: true exactly when
`scrollHeight - scrollTop - clientHeight` is strictly below 30. -/
theorem scroll_follow_flag :
    shouldAutoScrollInit = true ∧
      (∀ scrollHeight scrollTop clientHeight : Int,
        handleScroll scrollHeight scrollTop clientHeight = true ↔
          scrollHeight - scrollTop - clientHeight < 30) :=
  ⟨rfl, fun a b c => by simp [handleScroll]⟩

theorem appendLine_eq (es : List LogEntry) (k : Nat) (line : String) :
    appendLine ⟨es, k⟩ line =
      ⟨(es ++ [(⟨k, line⟩ : LogEntry)]).drop (es.length + 1 - MAX_LOG_LINES), k + 1⟩ := by
  simp only [appendLine]
  simp only [List.length_append, List.length_singleton]
  split
  · rfl
  · rename_i hle
    rw [Nat.sub_eq_zero_of_le (by omega), List.drop_zero]

theorem appendAll_cons (st : BufferState) (t : String) (ts : List String) :
    appendAll st (t :: ts) = appendAll (appendLine st t) ts := rfl

set_option maxRecDepth 4000 in
theorem appendAll_eq :
    ∀ (lines : List String) (es : List LogEntry) (k : Nat),
      es.length ≤ MAX_LOG_LINES →
      appendAll ⟨es, k⟩ lines =
        ⟨(es ++ entriesFrom k lines).drop (es.length + lines.length - MAX_LOG_LINES),
         k + lines.length⟩ := by
  intro lines
  induction lines with
  | nil =>
    intro es k h
    simp [appendAll, entriesFrom, Nat.sub_eq_zero_of_le h]
  | cons t ts ih =>
    intro es k h
    have hM : MAX_LOG_LINES = 200 := rfl
    rw [appendAll_cons, appendLine_eq]
    have hdle : es.length + 1 - MAX_LOG_LINES ≤ (es ++ [(⟨k, t⟩ : LogEntry)]).length := by
      simp only [List.length_append, List.length_singleton]
      omega
    have hlen :
        ((es ++ [(⟨k, t⟩ : LogEntry)]).drop (es.length + 1 - MAX_LOG_LINES)).length ≤
          MAX_LOG_LINES := by
      simp only [List.length_drop, List.length_append, List.length_singleton]
      omega
    rw [ih _ (k + 1) hlen]
    simp only [BufferState.mk.injEq]
    constructor
    · rw [← List.drop_append_of_le_length hdle, List.drop_drop]
      congr 1
      · simp only [List.length_drop, List.length_append, List.length_singleton,
          List.length_cons, List.length_nil]
        omega
      · simp [entriesFrom, List.append_assoc]
    · simp only [List.length_cons]
      omega

theorem appendAll_init_eq (lines : List String) :
    appendAll initBuffer lines =
      ⟨(entriesFrom 0 lines).drop (lines.length - MAX_LOG_LINES), lines.length⟩ := by
  have h := appendAll_eq lines [] 0 (by simp [MAX_LOG_LINES])
  simpa [initBuffer] using h

theorem entriesFrom_length : ∀ (lines : List String) (k : Nat),
    (entriesFrom k lines).length = lines.length := by
  intro lines
  induction lines with
  | nil => intro k; rfl
  | cons t ts ih => intro k; simp [entriesFrom, ih]

theorem entriesFrom_map_text : ∀ (lines : List String) (k : Nat),
    (entriesFrom k lines).map LogEntry.text = lines := by
  intro lines
  induction lines with
  | nil => intro k; rfl
  | cons t ts ih => intro k; simp [entriesFrom, ih]

theorem entriesFrom_map_id : ∀ (lines : List String) (k : Nat),
    (entriesFrom k lines).map LogEntry.id = List.range' k lines.length := by
  intro lines
  induction lines with
  | nil => intro k; rfl
  | cons t ts ih =>
    intro k
    rw [List.length_cons, List.range'_succ]
    simp [entriesFrom, ih]

theorem range'_drop : ∀ (n s m : Nat),
    (List.range' s n).drop m = List.range' (s + m) (n - m) := by
  intro n
  induction n with
  | zero => intro s m; simp
  | succ n ih =>
    intro s m
    rcases m with _ | m
    · simp
    · rw [List.range'_succ, List.drop_succ_cons, ih (s + 1) m]
      rw [show s + 1 + m = s + (m + 1) from by omega,
        show n - m = n + 1 - (m + 1) from by omega]

/-- C2: the buffer never exceeds MAX_LOG_LINES = 200 entries, and after
appending more than 200 lines one at a time to the initially empty buffer
the snapshot holds exactly the last 200 lines in arrival order, with ids
strictly increasing and contiguous (a final segment of the naturals). -/
theorem log_buffer_capacity_and_eviction (lines : List String) :
    (appendAll initBuffer lines).entries.length ≤ MAX_LOG_LINES ∧
      (MAX_LOG_LINES < lines.length →
        (appendAll initBuffer lines).entries.length = MAX_LOG_LINES ∧
        (appendAll initBuffer lines).entries.map LogEntry.text =
          lines.drop (lines.length - MAX_LOG_LINES) ∧
        (appendAll initBuffer lines).entries.map LogEntry.id =
          List.range' (lines.length - MAX_LOG_LINES) MAX_LOG_LINES) := by
  have hM : MAX_LOG_LINES = 200 := rfl
  rw [appendAll_init_eq]
  refine ⟨?_, fun hgt => ⟨?_, ?_, ?_⟩⟩
  · simp only [List.length_drop, entriesFrom_length]
    omega
  · simp only [List.length_drop, entriesFrom_length]
    omega
  · rw [List.map_drop, entriesFrom_map_text]
  · rw [List.map_drop, entriesFrom_map_id, range'_drop]
    rw [show (0 : Nat) + (lines.length - MAX_LOG_LINES) = lines.length - MAX_LOG_LINES
        from by omega,
      show lines.length - (lines.length - MAX_LOG_LINES) = MAX_LOG_LINES from by omega]

set_option maxRecDepth 40000 in
theorem log_buffer_capacity_witness :
    MAX_LOG_LINES < (List.replicate 201 "a").length ∧
      ((appendAll initBuffer (List.replicate 201 "a")).entries.length = MAX_LOG_LINES ∧
        (appendAll initBuffer (List.replicate 201 "a")).entries.map LogEntry.text =
          (List.replicate 201 "a").drop ((List.replicate 201 "a").length - MAX_LOG_LINES) ∧
        (appendAll initBuffer (List.replicate 201 "a")).entries.map LogEntry.id =
          List.range' ((List.replicate 201 "a").length - MAX_LOG_LINES) MAX_LOG_LINES) :=
  ⟨by decide, (log_buffer_capacity_and_eviction (List.replicate 201 "a")).2 (by decide)⟩

set_option maxRecDepth 40000 in
/-- C3 counterexample: deliver 250 escape-free lines in which line 50 and
line 51 (0-indexed) differ. The final snapshot does have length 200, but
the first visible entry's text is line 50 of the input, not line 51 as the
claim states (250 - 200 = 50 entries are evicted). -/
theorem serviceLog_first_visible_counterexample :
    ¬ ((appendAll initBuffer
          (List.replicate 51 "a" ++ List.replicate 199 "b")).entries.length
            = MAX_LOG_LINES ∧
        ((appendAll initBuffer
            (List.replicate 51 "a" ++ List.replicate 199 "b")).entries.head?).map
              LogEntry.text
          = (List.replicate 51 "a" ++ List.replicate 199 "b")[51]?) := by
  rw [appendAll_init_eq]
  decide

/-- C3 (amended): after delivering 250 lines sequentially to the initially
empty buffer of capacity 200, the final snapshot has length 200 and the
first visible entry's text equals line 50 (0-indexed) of the delivered
input sequence. -/
theorem serviceLog_250_lines_snapshot (lines : List String)
    (h : lines.length = 250) :
    (appendAll initBuffer lines).entries.length = MAX_LOG_LINES ∧
      ((appendAll initBuffer lines).entries.head?).map LogEntry.text = lines[50]? := by
  have hM : MAX_LOG_LINES = 200 := rfl
  rw [appendAll_init_eq]
  constructor
  · simp only [List.length_drop, entriesFrom_length]
    omega
  · have hD : lines.length - MAX_LOG_LINES = 50 := by omega
    simp only [hD]
    rw [List.head?_drop]
    rw [← List.getElem?_map, entriesFrom_map_text]

set_option maxRecDepth 40000 in
theorem serviceLog_250_lines_snapshot_witness :
    (List.replicate 250 "a").length = 250 ∧
      ((appendAll initBuffer (List.replicate 250 "a")).entries.length = MAX_LOG_LINES ∧
        ((appendAll initBuffer (List.replicate 250 "a")).entries.head?).map LogEntry.text =
          (List.replicate 250 "a")[50]?) :=
  ⟨by decide, serviceLog_250_lines_snapshot (List.replicate 250 "a") (by decide)⟩

set_option maxRecDepth 40000 in
theorem appendAll_mem_id :
    ∀ (lines : List String) (st : BufferState) (e : LogEntry),
      e ∈ (appendAll st lines).entries → e ∈ st.entries ∨ st.nextId ≤ e.id := by
  intro lines
  induction lines with
  | nil => intro st e h; exact Or.inl h
  | cons t ts ih =>
    intro st e h
    obtain ⟨es, k⟩ := st
    rw [appendAll_cons, appendLine_eq] at h
    rcases ih _ e h with h1 | h2
    · have h3 := List.mem_of_mem_drop h1
      rcases List.mem_append.mp h3 with ha | hb
      · exact Or.inl ha
      · right
        have he : e = (⟨k, t⟩ : LogEntry) := by simpa using hb
        simp [he]
    · right
      have h2' : k + 1 ≤ e.id := h2
      show k ≤ e.id
      omega

/-- C9: clearing the buffer resets it to empty and leaves the id counter
unchanged, so when the entry ids are below the counter (as every reachable
state satisfies), every entry appended after the clear has an id strictly
greater than every id assigned before it. -/
theorem clear_keeps_id_counter (st : BufferState) (lines : List String) :
    (clearBuffer st).entries = [] ∧
      (clearBuffer st).nextId = st.nextId ∧
      ((∀ e ∈ st.entries, e.id < st.nextId) →
        ∀ e2 ∈ (appendAll (clearBuffer st) lines).entries,
          ∀ e1 ∈ st.entries, e1.id < e2.id) := by
  refine ⟨rfl, rfl, fun hinv e2 h2 e1 h1 => ?_⟩
  rcases appendAll_mem_id lines (clearBuffer st) e2 h2 with hmem | hle
  · exact absurd hmem (List.not_mem_nil e2)
  · have ha := hinv e1 h1
    have hb : st.nextId ≤ e2.id := hle
    omega

theorem clear_keeps_id_counter_witness :
    (∀ e ∈ (⟨[⟨0, "x"⟩], 1⟩ : BufferState).entries,
        e.id < (⟨[⟨0, "x"⟩], 1⟩ : BufferState).nextId) ∧
      ∀ e2 ∈ (appendAll (clearBuffer ⟨[⟨0, "x"⟩], 1⟩) ["y"]).entries,
        ∀ e1 ∈ (⟨[⟨0, "x"⟩], 1⟩ : BufferState).entries, e1.id < e2.id :=
  ⟨by decide, (clear_keeps_id_counter ⟨[⟨0, "x"⟩], 1⟩ ["y"]).2.2 (by decide)⟩

theorem streamRun_closed :
    ∀ (es : List StreamEvent) (h : StreamHandle),
      h.state = .closed → streamRun h es = h := by
  intro es
  induction es with
  | nil => intro h hc; rfl
  | cons e es ih =>
    intro h hc
    obtain ⟨s, r, ol, oe⟩ := h
    cases s
    · exact absurd hc (by simp)
    · have hstep : streamStep ⟨.closed, r, ol, oe⟩ e = ⟨.closed, r, ol, oe⟩ := rfl
      show streamRun (streamStep ⟨.closed, r, ol, oe⟩ e) es = _
      rw [hstep]
      exact ih _ rfl

/-- C6: close() is idempotent — a second close produces no observable
difference and the resource is released exactly once (the release count
increments only on the Streaming-to-Closed transition) — and once a handle
is Closed (by close() or by a terminal transport error) no event sequence
the transport delivers afterwards changes anything: no further onLine or
onError invocations ever occur. -/
theorem stream_close_idempotent_and_final (h : StreamHandle) (es : List StreamEvent) :
    streamStep (streamStep h .close) .close = streamStep h .close ∧
      (streamStep h .close).state = .closed ∧
      (h.state = .streaming → (streamStep h .close).released = h.released + 1) ∧
      (h.state = .closed → streamStep h .close = h) ∧
      (∀ h2 : StreamHandle, h2.state = .closed → streamRun h2 es = h2) := by
  obtain ⟨s, r, ol, oe⟩ := h
  cases s
  · exact ⟨rfl, rfl, fun hh => rfl, fun hh => absurd hh (by simp),
      fun h2 hc => streamRun_closed es h2 hc⟩
  · exact ⟨rfl, rfl, fun hh => absurd hh (by simp), fun hh => rfl,
      fun h2 hc => streamRun_closed es h2 hc⟩

theorem stream_close_witness :
    openHandle.state = .streaming ∧
      (streamStep openHandle .close).state = .closed ∧
      (streamStep openHandle .close).released = openHandle.released + 1 ∧
      streamRun (streamStep openHandle .close) [StreamEvent.deliver "x"] =
        streamStep openHandle .close :=
  ⟨rfl,
   (stream_close_idempotent_and_final openHandle [StreamEvent.deliver "x"]).2.1,
   (stream_close_idempotent_and_final openHandle [StreamEvent.deliver "x"]).2.2.1 rfl,
   (stream_close_idempotent_and_final openHandle
       [StreamEvent.deliver "x"]).2.2.2.2 (streamStep openHandle .close) rfl⟩
